import Mathlib

/-!
Shallow embedding of the `roli_proxy` crate (sources under `src/proxy/src/`)
and proofs about it.  Pure functions of the Rust code become Lean functions;
the stateful parts (the global `LinkMap`, the tokio `OnceCell` based promise
types, the refresh timers) become explicit state passing or small-step
transition systems over executable state types.  Rust `String` contents are
represented as `List Char`; Rust `usize`/`i64` become `Nat`/`Int` (no
arithmetic in the embedded code can overflow at the sizes involved, and the
allocator scan is bounded explicitly).
-/

namespace RoliProxy

/-! ## Data model (api.rs, subset used by the embedded functions) -/

/-- Embeds the fields of `api::File` used by the builders. -/
structure File where
  width : Int
  height : Int
  ext : String
  url : String
  deriving Repr, DecidableEq

/-- Embeds the fields of `api::Preview` used by the builders. -/
structure Preview where
  width : Int
  height : Int
  url : String
  deriving Repr, DecidableEq

/-- Embeds the fields of `api::Sample` used by the builders. -/
structure Sample where
  width : Int
  height : Int
  url : String
  deriving Repr, DecidableEq

/-- Embeds `api::Score`. -/
structure Score where
  up : Int
  down : Int
  deriving Repr, DecidableEq

/-- Embeds the fields of `api::Post` used by the builders and by
`setup_links`. -/
structure Post where
  id : Int
  file : File
  preview : Preview
  sample : Sample
  score : Score
  rating : String
  deriving Repr, DecidableEq

/-! ## links.rs: identifier helper structs -/

/-- Embeds `links::HeaderIds`. -/
structure HeaderIds where
  search_map : Nat
  preview : Nat
  refresh : Nat
  deriving Repr, DecidableEq

/-- Embeds `links::PostIds`. -/
structure PostIds where
  post : Nat
  refresh : Nat
  deriving Repr, DecidableEq

/-- Embeds `PostIds::new`, which unpacks a pair of identifiers. -/
def PostIds.new (ids : Nat × Nat) : PostIds :=
  { post := ids.1, refresh := ids.2 }

/-! ## links.rs: the `SeachMapBuilder` (sic) wire-format serializer -/

/-- The three values of the const-generic `SEPARATOR` parameter of
`SeachMapBuilder::push_element` (the `match` in the source has exactly
these reachable arms). -/
inductive Sep where
  | comma
  | newlineSep
  | space
  deriving Repr, DecidableEq

/-- Embeds `links::SeachMapBuilder`, a wrapper around the string being
built; the Rust `String` is represented by its character list. -/
structure SeachMapBuilder where
  inner : List Char
  deriving Repr, DecidableEq

namespace SeachMapBuilder

/-- Embeds `SeachMapBuilder::push_element`: push the separator (nothing
for the space separator), then the element text. -/
def push_element (b : SeachMapBuilder) (sep : Sep) (element : String) : SeachMapBuilder :=
  let pre : List Char :=
    match sep with
    | .comma => [',']
    | .newlineSep => ['\n']
    | .space => []
  ⟨b.inner ++ pre ++ element.toList⟩

/-- Embeds `SeachMapBuilder::new_with_header`: the literal `600000`
followed by the three header identifiers, comma separated. -/
def new_with_header (ids : HeaderIds) : SeachMapBuilder :=
  ((((⟨[]⟩ : SeachMapBuilder).push_element .space "600000").push_element
      .comma (toString ids.search_map)).push_element
      .comma (toString ids.preview)).push_element
      .comma (toString ids.refresh)

/-- Embeds `SeachMapBuilder::push_post`: a newline, then the post metadata
fields comma separated, ending with the literal `1200000`. -/
def push_post (b : SeachMapBuilder) (post : Post) (ids : PostIds) : SeachMapBuilder :=
  (((((((((((b.push_element .newlineSep (toString ids.post)).push_element
      .comma (toString post.id)).push_element
      .comma (toString post.sample.width)).push_element
      .comma (toString post.sample.height)).push_element
      .comma (toString post.preview.width)).push_element
      .comma (toString post.preview.height)).push_element
      .comma (toString post.score.up)).push_element
      .comma (toString post.score.down)).push_element
      .comma post.rating).push_element
      .comma post.file.ext).push_element
      .comma (toString ids.refresh)).push_element
      .comma "1200000"

/-- Embeds `SeachMapBuilder::into_query`: freeze the built string. -/
def into_query (b : SeachMapBuilder) : String :=
  String.mk b.inner

end SeachMapBuilder

/-! ## query.rs: the older `QueryBuilder` serializer -/

/-- Embeds `query::QueryBuilder`, a wrapper around the string being built. -/
structure QueryBuilder where
  inner : List Char
  deriving Repr, DecidableEq

namespace QueryBuilder

/-- Embeds `QueryBuilder::new`. -/
def new : QueryBuilder := ⟨[]⟩

/-- Embeds `QueryBuilder::push_element`: push a comma first unless the
string so far is empty or ends with a newline, then the element text
(the source matches `None | Some newline` on the last character). -/
def push_element (b : QueryBuilder) (element : String) : QueryBuilder :=
  if b.inner.getLast? = none ∨ b.inner.getLast? = some '\n'
  then ⟨b.inner ++ element.toList⟩
  else ⟨b.inner ++ [','] ++ element.toList⟩

/-- Embeds `QueryBuilder::push_newline`. -/
def push_newline (b : QueryBuilder) : QueryBuilder :=
  ⟨b.inner ++ ['\n']⟩

/-- Embeds `QueryBuilder::push_header`: the literal `600000` and the three
header identifiers. -/
def push_header (b : QueryBuilder) (reget previews refresh : Nat) : QueryBuilder :=
  (((b.push_element "600000").push_element
      (toString reget)).push_element
      (toString previews)).push_element
      (toString refresh)

/-- Embeds `QueryBuilder::push_post`: a newline, then the post metadata;
note that the third and fourth fields are the FILE dimensions here, where
`SeachMapBuilder::push_post` emits the SAMPLE dimensions. -/
def push_post (b : QueryBuilder) (post : Post) (ids : Nat × Nat) : QueryBuilder :=
  (((((((((((b.push_newline.push_element (toString ids.1)).push_element
      (toString post.id)).push_element
      (toString post.file.width)).push_element
      (toString post.file.height)).push_element
      (toString post.preview.width)).push_element
      (toString post.preview.height)).push_element
      (toString post.score.up)).push_element
      (toString post.score.down)).push_element
      post.rating).push_element
      post.file.ext).push_element
      (toString ids.2)).push_element
      "1200000"

/-- Embeds `QueryBuilder::into_query`: freeze the built string. -/
def into_query (b : QueryBuilder) : String :=
  String.mk b.inner

end QueryBuilder

/-- The single post of the round-trip test vector: postId 42, sample
100x200, preview 50x75, score up 10 down -2, rating s, extension png.  The file
dimensions are set equal to the sample dimensions, as the builder under
test only reads the sample ones. -/
def roundTripPost : Post :=
  { id := 42
    file := { width := 100, height := 200, ext := "png", url := "" }
    preview := { width := 50, height := 75, url := "" }
    sample := { width := 100, height := 200, url := "" }
    score := { up := 10, down := -2 }
    rating := "s" }

/-- A post whose file dimensions differ from its sample dimensions,
separating the two builders. -/
def mismatchedPost : Post :=
  { id := 42
    file := { width := 300, height := 400, ext := "png", url := "" }
    preview := { width := 50, height := 75, url := "" }
    sample := { width := 100, height := 200, url := "" }
    score := { up := 10, down := -2 }
    rating := "s" }

/-! ## Facts about decimal rendering

The builders interleave `to_string` output with separator handling that
inspects the last character pushed, so we record that a rendered `Nat`
or `Int` is nonempty and never ends in a newline. -/

theorem toDigitsCore_eq_append (b : Nat) :
    ∀ (f n : Nat) (ds : List Char),
      Nat.toDigitsCore b f n ds = Nat.toDigitsCore b f n [] ++ ds := by
  intro f
  induction f with
  | zero => intro n ds; simp [Nat.toDigitsCore]
  | succ f ih =>
    intro n ds
    simp only [Nat.toDigitsCore]
    by_cases h : n / b = 0
    · simp [h]
    · simp only [if_neg h]
      rw [ih (n / b) (Nat.digitChar (n % b) :: ds), ih (n / b) [Nat.digitChar (n % b)]]
      simp

theorem toDigitsCore_getLast? (b : Nat) :
    ∀ (f n : Nat),
      (Nat.toDigitsCore b (f + 1) n []).getLast? = some (Nat.digitChar (n % b)) := by
  intro f n
  simp only [Nat.toDigitsCore]
  by_cases h : n / b = 0
  · simp [h]
  · simp only [if_neg h]
    rw [toDigitsCore_eq_append b f (n / b) [Nat.digitChar (n % b)]]
    simp

theorem digitChar_ne_newline : ∀ d < 10, Nat.digitChar d ≠ '\n' := by decide

/-- Rendered naturals end in a decimal digit character. -/
theorem natToString_getLast? (n : Nat) :
    (toString n).toList.getLast? = some (Nat.digitChar (n % 10)) := by
  show (Nat.repr n).toList.getLast? = _
  rw [Nat.repr, Nat.toDigits]
  have : (Nat.toDigitsCore 10 (n + 1) n []).asString.toList
      = Nat.toDigitsCore 10 (n + 1) n [] := rfl
  rw [this, toDigitsCore_getLast? 10 n n]

theorem natToString_ne_nil (n : Nat) : (toString n).toList ≠ [] := by
  intro h
  have := natToString_getLast? n
  rw [h] at this
  simp [List.getLast?] at this

theorem natToString_getLast?_ne_newline (n : Nat) :
    (toString n).toList.getLast? ≠ some '\n' := by
  rw [natToString_getLast? n]
  intro h
  exact digitChar_ne_newline (n % 10) (Nat.mod_lt n (by decide)) (by
    injection h)

/-- Rendered integers end in a decimal digit character as well: a negative
integer is rendered as a minus sign followed by the rendering of its
absolute value. -/
theorem intToString_getLast?_ne_newline (i : Int) :
    (toString i).toList.getLast? ≠ some '\n' := by
  cases i with
  | ofNat n =>
    show (Int.repr (Int.ofNat n)).toList.getLast? ≠ some '\n'
    simp only [Int.repr]
    exact natToString_getLast?_ne_newline n
  | negSucc n =>
    show (Int.repr (Int.negSucc n)).toList.getLast? ≠ some '\n'
    simp only [Int.repr]
    have h : ("-" ++ Nat.repr (n + 1)).toList = '-' :: (Nat.repr (n + 1)).toList := rfl
    rw [h]
    have hlast : ((Nat.repr (n + 1)).toList).getLast? ≠ some '\n' :=
      natToString_getLast?_ne_newline (n + 1)
    cases hr : (Nat.repr (n + 1)).toList with
    | nil => exact absurd hr (natToString_ne_nil (n + 1))
    | cons c cs =>
      rw [List.getLast?_cons_cons]
      rw [hr] at hlast
      exact hlast

/-! ## Builder equivalence (query.rs vs links.rs)

The `QueryBuilder` decides whether to emit a comma by inspecting the last
character built so far, while `SeachMapBuilder` receives the separator
explicitly at each call site.  The two agree as long as the string built
so far is nonempty and does not end in a newline; `commaState` captures
that condition, and `elemOk` is the condition on a pushed element under
which the state persists. -/

/-- State under which `QueryBuilder.push_element` emits a leading comma. -/
def commaState (l : List Char) : Prop :=
  l ≠ [] ∧ l.getLast? ≠ some '\n'

/-- Elements whose text does not end in a newline preserve `commaState`. -/
def elemOk (e : String) : Prop :=
  e.toList.getLast? ≠ some '\n'

instance (l : List Char) : Decidable (commaState l) := by
  unfold commaState; infer_instance

instance (e : String) : Decidable (elemOk e) := by
  unfold elemOk; infer_instance

theorem QueryBuilder.push_element_of_commaState (qb : QueryBuilder) (e : String)
    (h : commaState qb.inner) :
    (qb.push_element e).inner = qb.inner ++ ',' :: e.toList := by
  unfold QueryBuilder.push_element
  rcases h with ⟨hne, hnl⟩
  rw [if_neg]
  · simp
  · rintro (hcase | hcase)
    · exact hne (List.getLast?_eq_none_iff.mp hcase)
    · exact hnl hcase

theorem QueryBuilder.push_element_no_comma (qb : QueryBuilder) (e : String)
    (h : qb.inner.getLast? = none ∨ qb.inner.getLast? = some '\n') :
    (qb.push_element e).inner = qb.inner ++ e.toList := by
  unfold QueryBuilder.push_element
  rw [if_pos h]

theorem commaState_append_comma (l : List Char) (e : String) (he : elemOk e) :
    commaState (l ++ ',' :: e.toList) := by
  constructor
  · simp
  · rw [List.getLast?_append_cons]
    cases hl : e.toList with
    | nil => simp
    | cons c cs =>
      rw [List.getLast?_cons_cons]
      have := he
      unfold elemOk at this
      rw [hl] at this
      exact this

theorem commaState_append_newline (l : List Char) (e : String)
    (hne : e.toList ≠ []) (he : elemOk e) :
    commaState (l ++ '\n' :: e.toList) := by
  constructor
  · simp
  · rw [List.getLast?_append_cons]
    cases hl : e.toList with
    | nil => exact absurd hl hne
    | cons c cs =>
      rw [List.getLast?_cons_cons]
      have := he
      unfold elemOk at this
      rw [hl] at this
      exact this

/-- Folding a run of comma-separated element pushes, for `QueryBuilder`. -/
def QueryBuilder.pushAll (b : QueryBuilder) (es : List String) : QueryBuilder :=
  es.foldl QueryBuilder.push_element b

/-- Folding a run of comma-separated element pushes, for `SeachMapBuilder`. -/
def SeachMapBuilder.pushAll (b : SeachMapBuilder) (es : List String) : SeachMapBuilder :=
  es.foldl (fun b e => b.push_element .comma e) b

theorem pushAll_eq (es : List String) :
    ∀ (qb : QueryBuilder) (b : SeachMapBuilder),
      qb.inner = b.inner → commaState qb.inner → (∀ e ∈ es, elemOk e) →
      (qb.pushAll es).inner = (b.pushAll es).inner ∧ commaState (qb.pushAll es).inner := by
  induction es with
  | nil => intro qb b heq hst _; exact ⟨heq, hst⟩
  | cons e es ih =>
    intro qb b heq hst hok
    have hstep : (qb.push_element e).inner = (b.push_element .comma e).inner := by
      rw [QueryBuilder.push_element_of_commaState qb e hst]
      simp [SeachMapBuilder.push_element, heq]
    have hst2 : commaState (qb.push_element e).inner := by
      rw [QueryBuilder.push_element_of_commaState qb e hst]
      exact commaState_append_comma _ _ (hok e (by simp))
    exact ih (qb.push_element e) (b.push_element .comma e) hstep hst2
      (fun x hx => hok x (by simp [hx]))

theorem header_eq (ids : HeaderIds) :
    (QueryBuilder.new.push_header ids.search_map ids.preview ids.refresh).inner
        = (SeachMapBuilder.new_with_header ids).inner ∧
      commaState (QueryBuilder.new.push_header ids.search_map ids.preview ids.refresh).inner := by
  have hfirst : (QueryBuilder.new.push_element "600000").inner
      = ((⟨[]⟩ : SeachMapBuilder).push_element .space "600000").inner := by
    rw [QueryBuilder.push_element_no_comma _ _ (Or.inl (by simp [QueryBuilder.new]))]
    simp [QueryBuilder.new, SeachMapBuilder.push_element]
  have hst : commaState (QueryBuilder.new.push_element "600000").inner := by
    rw [QueryBuilder.push_element_no_comma _ _ (Or.inl (by simp [QueryBuilder.new]))]
    simp [QueryBuilder.new]
    decide
  have h := pushAll_eq [toString ids.search_map, toString ids.preview, toString ids.refresh]
    (QueryBuilder.new.push_element "600000")
    ((⟨[]⟩ : SeachMapBuilder).push_element .space "600000") hfirst hst
    (by
      intro e he
      simp only [List.mem_cons, List.mem_singleton] at he
      rcases he with h | h | h | h
      · rw [h]; exact natToString_getLast?_ne_newline _
      · rw [h]; exact natToString_getLast?_ne_newline _
      · rw [h]; exact natToString_getLast?_ne_newline _
      · cases h)
  exact h

theorem push_post_eq (post : Post) (ids : PostIds)
    (qb : QueryBuilder) (b : SeachMapBuilder)
    (heq : qb.inner = b.inner)
    (hw : post.file.width = post.sample.width)
    (hh : post.file.height = post.sample.height)
    (hr : elemOk post.rating) (he : elemOk post.file.ext) :
    (qb.push_post post (ids.post, ids.refresh)).inner = (b.push_post post ids).inner ∧
      commaState (qb.push_post post (ids.post, ids.refresh)).inner := by
  have hlastnl : qb.push_newline.inner.getLast? = some '\n' := by
    simp [QueryBuilder.push_newline]
  have hn : (qb.push_newline.push_element (toString ids.post)).inner
      = (b.push_element .newlineSep (toString ids.post)).inner := by
    rw [QueryBuilder.push_element_no_comma _ _ (Or.inr hlastnl)]
    simp [QueryBuilder.push_newline, SeachMapBuilder.push_element, heq]
  have hstn : commaState (qb.push_newline.push_element (toString ids.post)).inner := by
    rw [QueryBuilder.push_element_no_comma _ _ (Or.inr hlastnl)]
    have happ : qb.push_newline.inner ++ (toString ids.post).toList
        = qb.inner ++ '\n' :: (toString ids.post).toList := by
      simp [QueryBuilder.push_newline]
    rw [happ]
    exact commaState_append_newline _ _ (natToString_ne_nil _)
      (natToString_getLast?_ne_newline _)
  have h := pushAll_eq
    [toString post.id, toString post.sample.width, toString post.sample.height,
      toString post.preview.width, toString post.preview.height,
      toString post.score.up, toString post.score.down,
      post.rating, post.file.ext, toString ids.refresh, "1200000"]
    (qb.push_newline.push_element (toString ids.post))
    (b.push_element .newlineSep (toString ids.post)) hn hstn
    (by
      intro e hmem
      simp only [List.mem_cons, List.mem_singleton] at hmem
      rcases hmem with h | h | h | h | h | h | h | h | h | h | h | h
      · rw [h]; exact intToString_getLast?_ne_newline _
      · rw [h]; exact intToString_getLast?_ne_newline _
      · rw [h]; exact intToString_getLast?_ne_newline _
      · rw [h]; exact intToString_getLast?_ne_newline _
      · rw [h]; exact intToString_getLast?_ne_newline _
      · rw [h]; exact intToString_getLast?_ne_newline _
      · rw [h]; exact intToString_getLast?_ne_newline _
      · rw [h]; exact hr
      · rw [h]; exact he
      · rw [h]; exact natToString_getLast?_ne_newline _
      · rw [h]; decide
      · cases h)
  have hq : qb.push_post post (ids.post, ids.refresh)
      = (qb.push_newline.push_element (toString ids.post)).pushAll
          [toString post.id, toString post.file.width, toString post.file.height,
            toString post.preview.width, toString post.preview.height,
            toString post.score.up, toString post.score.down,
            post.rating, post.file.ext, toString ids.refresh, "1200000"] := rfl
  have hs : b.push_post post ids
      = (b.push_element .newlineSep (toString ids.post)).pushAll
          [toString post.id, toString post.sample.width, toString post.sample.height,
            toString post.preview.width, toString post.preview.height,
            toString post.score.up, toString post.score.down,
            post.rating, post.file.ext, toString ids.refresh, "1200000"] := rfl
  rw [hq, hs, hw, hh]
  exact h

/-- The complete build of query.rs: header then one line per post. -/
def QueryBuilder.buildFull (ids : HeaderIds) (posts : List (Post × PostIds)) : String :=
  (posts.foldl (fun b pi => b.push_post pi.1 (pi.2.post, pi.2.refresh))
    (QueryBuilder.new.push_header ids.search_map ids.preview ids.refresh)).into_query

/-- The complete build of links.rs: header then one line per post. -/
def SeachMapBuilder.buildFull (ids : HeaderIds) (posts : List (Post × PostIds)) : String :=
  (posts.foldl (fun b pi => b.push_post pi.1 pi.2)
    (SeachMapBuilder.new_with_header ids)).into_query

/-- Side conditions on a post under which the two builders can agree on its
line: the file dimensions equal the sample dimensions, and neither the
rating nor the extension text ends in a newline. -/
def PostAgrees (p : Post) : Prop :=
  p.file.width = p.sample.width ∧ p.file.height = p.sample.height ∧
    elemOk p.rating ∧ elemOk p.file.ext

instance (p : Post) : Decidable (PostAgrees p) := by
  unfold PostAgrees; infer_instance

theorem buildFull_fold_eq (posts : List (Post × PostIds)) :
    ∀ (qb : QueryBuilder) (b : SeachMapBuilder),
      qb.inner = b.inner → commaState qb.inner →
      (∀ pi ∈ posts, PostAgrees pi.1) →
      (posts.foldl (fun b pi => b.push_post pi.1 (pi.2.post, pi.2.refresh)) qb).inner
        = (posts.foldl (fun b pi => b.push_post pi.1 pi.2) b).inner := by
  induction posts with
  | nil => intro qb b heq _ _; exact heq
  | cons pi rest ih =>
    intro qb b heq hst hok
    have hag := hok pi (by simp)
    rcases hag with ⟨hw, hh, hr, he⟩
    have h := push_post_eq pi.1 pi.2 qb b heq hw hh hr he
    rw [List.foldl_cons, List.foldl_cons]
    exact ih _ _ h.1 h.2 (fun x hx => hok x (List.mem_cons_of_mem _ hx))

/-! ## Claim C1 -/

/-- C1: the frozen blob built by `SeachMapBuilder::new_with_header`
followed by `push_post` and `into_query` from header ids (5, 6, 7) and the
single post (imageId 1, postId 42, sample 100x200, preview 50x75, score up
10 down -2, rating s, extension png, imageRefreshId 2) is exactly the two
line ASCII string of the wire format, comma joined with no trailing
separator and no trailing newline. -/
theorem c1_round_trip_blob :
    ((SeachMapBuilder.new_with_header
        { search_map := 5, preview := 6, refresh := 7 }).push_post roundTripPost
        { post := 1, refresh := 2 }).into_query
      = "600000,5,6,7\n1,42,100,200,50,75,10,-2,s,png,2,1200000" := by
  decide

/-! ## Claim C10 -/

/-- C10 counterexample: on a post whose file dimensions (300x400) differ
from its sample dimensions (100x200), the two builders produce different
strings, because the per-post line third and fourth fields are the file
dimensions in query.rs but the sample dimensions in links.rs. -/
theorem c10_counterexample :
    QueryBuilder.buildFull { search_map := 5, preview := 6, refresh := 7 }
        [(mismatchedPost, { post := 1, refresh := 2 })]
      ≠ SeachMapBuilder.buildFull { search_map := 5, preview := 6, refresh := 7 }
        [(mismatchedPost, { post := 1, refresh := 2 })] := by
  decide

/-- C10 (amended): the two builders emit identical headers and identical
per-post lines except for the third and fourth per-post fields, where
query.rs emits the file dimensions and links.rs the sample dimensions; the
outputs coincide for every header id triple and post list in which each
post has file dimensions equal to its sample dimensions (and rating and
extension strings not ending in a newline, which the comma logic of
query.rs inspects). -/
theorem c10_builders_agree (ids : HeaderIds) (posts : List (Post × PostIds))
    (hok : ∀ pi ∈ posts, PostAgrees pi.1) :
    QueryBuilder.buildFull ids posts = SeachMapBuilder.buildFull ids posts := by
  unfold QueryBuilder.buildFull SeachMapBuilder.buildFull
  unfold QueryBuilder.into_query SeachMapBuilder.into_query
  have hh := header_eq ids
  have h := buildFull_fold_eq posts _ _ hh.1 hh.2 hok
  rw [h]

/-- Witness for C10 (amended) at the round-trip post, whose file and
sample dimensions agree. -/
theorem c10_builders_agree_witness :
    (∀ pi ∈ [(roundTripPost, ({ post := 1, refresh := 2 } : PostIds))], PostAgrees pi.1) ∧
      QueryBuilder.buildFull { search_map := 5, preview := 6, refresh := 7 }
          [(roundTripPost, { post := 1, refresh := 2 })]
        = SeachMapBuilder.buildFull { search_map := 5, preview := 6, refresh := 7 }
          [(roundTripPost, { post := 1, refresh := 2 })] :=
  ⟨by decide, c10_builders_agree _ _ (by decide)⟩

/-! ## image.rs / refresh.rs / links.rs: resource handles and the registry -/

/-- Embeds `image::Image`: image bytes plus a mime type. -/
structure Image where
  data : List Nat
  mime_type : String
  deriving Repr, DecidableEq

/-- Embeds `refresh::Refresher`: `One` holds the sender of a bounded mpsc
channel of capacity one, modelled by its pending pulse count and whether
the receiving timer task is still alive; `Many` holds the sender of a
broadcast channel, modelled by its current subscriber count. -/
inductive Refresher where
  | one (pending : Nat) (receiverAlive : Bool)
  | many (subscribers : Nat)
  deriving Repr, DecidableEq

/-- Embeds `links::Link`.  The two promise variants are modelled by the
value each promise eventually resolves to. -/
inductive Link where
  | previews (img : Option Image)
  | image (img : Option Image)
  | searchMap (s : String)
  | refreshImage (r : Refresher)
  | refreshSearch (r : Refresher)
  deriving Repr, DecidableEq

/-- Embeds `links::LinkMap`: the registry mapping identifiers to links.
The Rust `HashMap` is modelled by an association list. -/
structure LinkMap where
  inner : List (Nat × Link)
  deriving Repr, DecidableEq

namespace LinkMap

/-- Embeds `HashMap::contains_key` on the registry. -/
def contains_key (m : LinkMap) (k : Nat) : Bool :=
  (m.inner.map Prod.fst).contains k

/-- Embeds `LinkMap::get`: the link for an identifier, if present. -/
def get (m : LinkMap) (k : Nat) : Option Link :=
  (m.inner.find? (fun e => e.1 == k)).map Prod.snd

/-- Embeds `HashMap::insert` on the registry (replacing any old binding). -/
def insert (m : LinkMap) (k : Nat) (v : Link) : LinkMap :=
  ⟨(k, v) :: m.inner.eraseP (fun e => e.1 == k)⟩

/-- Embeds `HashMap::remove` on the registry. -/
def remove (m : LinkMap) (k : Nat) : LinkMap :=
  ⟨m.inner.eraseP (fun e => e.1 == k)⟩

/-- Embeds the ascending scan `(0..).filter(|k| !contains_key(k))` of
`get_free_ids`, of which the callers take `count` elements.  The Rust
iterator is unbounded; because at most `m.inner.length` identifiers are
occupied, the first `count` free identifiers all lie below
`m.inner.length + count`, so the embedding scans up to that bound. -/
def free_ids (m : LinkMap) (count : Nat) : List Nat :=
  ((List.range (m.inner.length + count)).filter (fun k => !m.contains_key k)).take count

end LinkMap

/-- Embeds the `tuples()` pairing of consecutive allocated identifiers in
`get_free_ids` (a trailing odd element is discarded, as with `Itertools`). -/
def pairUp : List Nat → List (Nat × Nat)
  | a :: b :: rest => (a, b) :: pairUp rest
  | _ => []

/-- Embeds `LinkMap::get_free_ids`: the first `2 * N` free identifiers are
paired off and zipped with the posts, the next three become the header
identifiers. -/
def LinkMap.get_free_ids (m : LinkMap) (posts : List Post) :
    List (Post × PostIds) × HeaderIds :=
  let ids := m.free_ids (2 * posts.length + 3)
  let post_ids := posts.zip ((pairUp (ids.take (2 * posts.length))).map PostIds.new)
  let rest := ids.drop (2 * posts.length)
  (post_ids,
    { search_map := rest.getD 0 0, preview := rest.getD 1 0, refresh := rest.getD 2 0 })

namespace LinkMap

/-- Embeds `LinkMap::insert_image`: the sample image link and its
individual refresher link. -/
def insert_image (m : LinkMap) (ids : PostIds) (res : Option Image × Refresher) : LinkMap :=
  (m.insert ids.post (Link.image res.1)).insert ids.refresh (Link.refreshImage res.2)

/-- Embeds `LinkMap::remove_image`. -/
def remove_image (m : LinkMap) (ids : PostIds) : LinkMap :=
  (m.remove ids.post).remove ids.refresh

/-- Embeds `LinkMap::insert_preview`. -/
def insert_preview (m : LinkMap) (ids : HeaderIds) (res : Option Image) : LinkMap :=
  m.insert ids.preview (Link.previews res)

/-- Embeds `LinkMap::remove_preview`. -/
def remove_preview (m : LinkMap) (ids : HeaderIds) : LinkMap :=
  m.remove ids.preview

/-- Embeds `LinkMap::insert_query`: the search map link and the group
refresher link. -/
def insert_query (m : LinkMap) (ids : HeaderIds) (res : String × Refresher) : LinkMap :=
  (m.insert ids.search_map (Link.searchMap res.1)).insert ids.refresh (Link.refreshSearch res.2)

/-- Embeds `LinkMap::remove_query`. -/
def remove_query (m : LinkMap) (ids : HeaderIds) : LinkMap :=
  (m.remove ids.search_map).remove ids.refresh

end LinkMap

/-- Whether a refresh attachment waits on a private channel in addition to
the group broadcast (`attach_with_local`) or only on the group broadcast
(`attach`). -/
inductive AttachKind where
  | individual
  | group
  deriving Repr, DecidableEq

/-- One timer task armed through the `RefreshHandler` during setup: its
duration, its kind and the registry identifiers its teardown removes. -/
structure Attachment where
  duration : Nat
  kind : AttachKind
  removes : List Nat
  deriving Repr, DecidableEq

/-- Embeds the per-post loop of `setup_links`: push the post line onto the
builder, arm an individual 1200 unit teardown that removes the post ids,
start the lazy image promise and insert the two image links.  The external
image fetch is the parameter `fetch`. -/
def setup_loop (fetch : String → Option Image) :
    List (Post × PostIds) → LinkMap × SeachMapBuilder × List Attachment
      → LinkMap × SeachMapBuilder × List Attachment
  | [], st => st
  | (post, ids) :: rest, (m, builder, atts) =>
    setup_loop fetch rest
      (m.insert_image ids (fetch post.sample.url, Refresher.one 0 true),
        builder.push_post post ids,
        atts ++ [{ duration := 1200, kind := .individual,
                   removes := [ids.post, ids.refresh] }])

/-- Embeds `setup_links`.  The write lock that the source acquires on entry
and drops on return is modelled by the whole function being one atomic
transition on the registry.  The external collaborators (the image
fetcher and the preview compositor) are parameters.  Returned alongside
the new registry and the frozen search map is the list of refresh
attachments armed during setup. -/
def setup_links (fetch : String → Option Image) (previewImg : Option Image)
    (m : LinkMap) (posts : List Post) : LinkMap × String × List Attachment :=
  let pids := m.get_free_ids posts
  let post_ids := pids.1
  let header_ids := pids.2
  let st := setup_loop fetch post_ids (m, SeachMapBuilder.new_with_header header_ids, [])
  let search_map := st.2.1.into_query
  let m2 := (st.1.insert_preview header_ids previewImg).insert_query header_ids
    (search_map, Refresher.many (post_ids.length + 1))
  (m2, search_map,
    st.2.2 ++ [{ duration := 600, kind := .group,
                 removes := [header_ids.search_map, header_ids.refresh, header_ids.preview] }])

/-! ## Allocator correctness -/

theorem contains_key_iff (m : LinkMap) (k : Nat) :
    m.contains_key k = true ↔ k ∈ m.inner.map Prod.fst := by
  simp [LinkMap.contains_key, List.elem_iff]

/-- Characterizes a list as the first `count` identifiers, scanned in
ascending order from zero, that are not keys of the registry: it has
`count` elements, strictly ascending, all free, and every free identifier
outside it exceeds every identifier in it. -/
def FirstFreeIds (m : LinkMap) (count : Nat) (l : List Nat) : Prop :=
  l.length = count ∧ l.Pairwise (· < ·) ∧ (∀ i ∈ l, m.contains_key i = false) ∧
    ∀ j, m.contains_key j = false → j ∉ l → ∀ i ∈ l, i < j

theorem free_ids_count_le (m : LinkMap) (count : Nat) :
    count ≤ ((List.range (m.inner.length + count)).filter
      (fun k => !m.contains_key k)).length := by
  set L := m.inner.length with hL
  set r := List.range (L + count) with hr
  have hpart : r.length
      = (r.filter (fun k => m.contains_key k)).length
        + (r.filter (fun k => !m.contains_key k)).length :=
    List.length_eq_length_filter_add (fun k => m.contains_key k)
  have hocc : (r.filter (fun k => m.contains_key k)).length ≤ L := by
    have hnd : (r.filter (fun k => m.contains_key k)).Nodup :=
      (List.nodup_range _).filter _
    have hsub : (r.filter (fun k => m.contains_key k)) ⊆ m.inner.map Prod.fst := by
      intro x hx
      have := List.mem_filter.mp hx
      exact (contains_key_iff m x).mp this.2
    have := (hnd.subperm hsub).length_le
    simpa using this
  have hlen : r.length = L + count := by simp [hr]
  omega

theorem free_ids_spec (m : LinkMap) (count : Nat) :
    FirstFreeIds m count (m.free_ids count) := by
  set p : Nat → Bool := fun k => !m.contains_key k with hp
  set f := (List.range (m.inner.length + count)).filter p with hf
  have hcle : count ≤ f.length := free_ids_count_le m count
  have hfr : m.free_ids count = f.take count := rfl
  have hpairf : f.Pairwise (· < ·) :=
    List.Pairwise.sublist (List.filter_sublist _) (List.pairwise_lt_range _)

  refine ⟨?_, ?_, ?_, ?_⟩
  · rw [hfr, List.length_take]
    omega
  · rw [hfr]
    exact List.Pairwise.sublist (List.take_sublist _ _) hpairf
  · intro i hi
    rw [hfr] at hi
    have hmem := List.mem_of_mem_take hi
    have := (List.mem_filter.mp hmem).2
    simpa [hp] using this
  · intro j hjfree hjnot i hi
    rw [hfr] at hjnot hi
    by_cases hjB : j < m.inner.length + count
    · have hjf : j ∈ f := by
        rw [hf]
        exact List.mem_filter.mpr ⟨List.mem_range.mpr hjB, by simp [hp, hjfree]⟩
      have hsplit : f.take count ++ f.drop count = f := List.take_append_drop _ _
      have hpair2 : (f.take count ++ f.drop count).Pairwise (· < ·) := by
        rw [hsplit]; exact hpairf
      have hjd : j ∈ f.drop count := by
        rw [← hsplit] at hjf
        rcases List.mem_append.mp hjf with h | h
        · exact absurd h hjnot
        · exact h
      exact ((List.pairwise_append.mp hpair2).2.2) i hi j hjd
    · have hif : i ∈ f := List.mem_of_mem_take hi
      have : i ∈ List.range (m.inner.length + count) := (List.filter_sublist _).mem hif
      have := List.mem_range.mp this
      omega

theorem free_ids_nodup (m : LinkMap) (count : Nat) :
    (m.free_ids count).Nodup := by
  have h := (free_ids_spec m count).2.1
  exact h.imp (fun hlt => Nat.ne_of_lt hlt)

/-! ## Registry insertion bookkeeping -/

theorem insert_fresh (m : LinkMap) (k : Nat) (v : Link)
    (h : m.contains_key k = false) :
    (m.insert k v).inner = (k, v) :: m.inner := by
  have herase : m.inner.eraseP (fun e => e.1 == k) = m.inner := by
    apply List.eraseP_of_forall_not
    intro e he hbeq
    have hk : k ∈ m.inner.map Prod.fst :=
      List.mem_map.mpr ⟨e, he, by simpa using hbeq⟩
    rw [← contains_key_iff] at hk
    rw [h] at hk
    cases hk
  simp [LinkMap.insert, herase]

theorem contains_key_insert (m : LinkMap) (k : Nat) (v : Link) (j : Nat)
    (h : m.contains_key k = false) :
    ((m.insert k v).contains_key j = true) ↔ (j = k ∨ m.contains_key j = true) := by
  rw [contains_key_iff, insert_fresh m k v h]
  simp [contains_key_iff]

theorem length_insert (m : LinkMap) (k : Nat) (v : Link)
    (h : m.contains_key k = false) :
    (m.insert k v).inner.length = m.inner.length + 1 := by
  rw [insert_fresh m k v h]
  simp

theorem contains_key_false_iff (m : LinkMap) (j : Nat) :
    m.contains_key j = false ↔ ¬ (m.contains_key j = true) := by
  cases h : m.contains_key j <;> simp

/-- The registry identifiers consumed by a list of post id assignments. -/
def flatIds (l : List (Post × PostIds)) : List Nat :=
  l.flatMap (fun pi => [pi.2.post, pi.2.refresh])

theorem flatIds_cons (post : Post) (ids : PostIds) (rest : List (Post × PostIds)) :
    flatIds ((post, ids) :: rest) = ids.post :: ids.refresh :: flatIds rest := rfl

theorem setup_loop_registry (fetch : String → Option Image) :
    ∀ (l : List (Post × PostIds)) (m : LinkMap) (b : SeachMapBuilder) (atts : List Attachment),
      (flatIds l).Nodup → (∀ i ∈ flatIds l, m.contains_key i = false) →
      (setup_loop fetch l (m, b, atts)).1.inner.length = m.inner.length + 2 * l.length ∧
      ∀ j, ((setup_loop fetch l (m, b, atts)).1.contains_key j = true)
          ↔ (m.contains_key j = true ∨ j ∈ flatIds l) := by
  intro l
  induction l with
  | nil =>
    intro m b atts _ _
    exact ⟨by simp [setup_loop], by intro j; simp [setup_loop, flatIds]⟩
  | cons pi rest ih =>
    rcases pi with ⟨post, ids⟩
    intro m b atts hnd hfresh
    rw [flatIds_cons] at hnd hfresh
    have hpostf : m.contains_key ids.post = false := hfresh _ (by simp)
    have hreff : m.contains_key ids.refresh = false := hfresh _ (by simp)
    rcases List.nodup_cons.mp hnd with ⟨hp_notin, hnd1⟩
    rcases List.nodup_cons.mp hnd1 with ⟨hr_notin, hndrest⟩
    have hne : ids.post ≠ ids.refresh := by
      intro h; exact hp_notin (by simp [h])
    have hreff1 : (m.insert ids.post (Link.image (fetch post.sample.url))).contains_key
        ids.refresh = false := by
      rw [contains_key_false_iff, contains_key_insert _ _ _ _ hpostf]
      push_neg
      refine ⟨fun h => hne h.symm, ?_⟩
      rw [contains_key_false_iff] at hreff
      exact hreff
    have hstep : setup_loop fetch ((post, ids) :: rest) (m, b, atts)
        = setup_loop fetch rest
          (m.insert_image ids (fetch post.sample.url, Refresher.one 0 true),
            b.push_post post ids,
            atts ++ [{ duration := 1200, kind := .individual,
                       removes := [ids.post, ids.refresh] }]) := rfl
    set m1 := m.insert_image ids (fetch post.sample.url, Refresher.one 0 true) with hm1
    have hm1def : m1 = (m.insert ids.post (Link.image (fetch post.sample.url))).insert
        ids.refresh (Link.refreshImage (Refresher.one 0 true)) := rfl
    have hlen1 : m1.inner.length = m.inner.length + 2 := by
      rw [hm1def, length_insert _ _ _ hreff1, length_insert _ _ _ hpostf]
    have hcont1 : ∀ j, (m1.contains_key j = true)
        ↔ (j = ids.post ∨ j = ids.refresh ∨ m.contains_key j = true) := by
      intro j
      rw [hm1def, contains_key_insert _ _ _ _ hreff1, contains_key_insert _ _ _ _ hpostf]
      tauto
    have hfresh1 : ∀ i ∈ flatIds rest, m1.contains_key i = false := by
      intro i hi
      rw [contains_key_false_iff, hcont1]
      push_neg
      refine ⟨?_, ?_, ?_⟩
      · intro h; exact hp_notin (by simp [← h, hi])
      · intro h; exact hr_notin (h ▸ hi)
      · have hfi := hfresh i (by simp [hi])
        rw [contains_key_false_iff] at hfi
        exact hfi
    have hih := ih m1 (b.push_post post ids)
      (atts ++ [{ duration := 1200, kind := .individual,
                  removes := [ids.post, ids.refresh] }]) hndrest hfresh1
    rw [hstep]
    constructor
    · rw [hih.1, hlen1]
      simp only [List.length_cons]
      omega
    · intro j
      rw [hih.2 j, hcont1 j, flatIds_cons]
      simp only [List.mem_cons]
      tauto

theorem pairUp_flatMap : ∀ (n : Nat) (l : List Nat), l.length = 2 * n →
    (pairUp l).flatMap (fun p => [p.1, p.2]) = l := by
  intro n
  induction n with
  | zero =>
    intro l hl
    have : l = [] := List.length_eq_zero.mp (by omega)
    subst this
    rfl
  | succ n ih =>
    intro l hl
    cases l with
    | nil => simp at hl
    | cons a t =>
      cases t with
      | nil => simp at hl; omega
      | cons b rest =>
        have hrl : rest.length = 2 * n := by
          simp at hl; omega
        show a :: b :: (pairUp rest).flatMap (fun p => [p.1, p.2]) = a :: b :: rest
        rw [ih rest hrl]

theorem pairUp_length : ∀ (n : Nat) (l : List Nat), l.length = 2 * n →
    (pairUp l).length = n := by
  intro n
  induction n with
  | zero =>
    intro l hl
    have : l = [] := List.length_eq_zero.mp (by omega)
    subst this
    rfl
  | succ n ih =>
    intro l hl
    cases l with
    | nil => simp at hl
    | cons a t =>
      cases t with
      | nil => simp at hl; omega
      | cons b rest =>
        have hrl : rest.length = 2 * n := by
          simp at hl; omega
        show (pairUp rest).length + 1 = n + 1
        rw [ih rest hrl]

theorem flatIds_zip : ∀ (posts : List Post) (pairs : List (Nat × Nat)),
    posts.length = pairs.length →
    flatIds (posts.zip (pairs.map PostIds.new)) = pairs.flatMap (fun p => [p.1, p.2]) := by
  intro posts
  induction posts with
  | nil =>
    intro pairs h
    have : pairs = [] := List.length_eq_zero.mp (by simpa using h.symm)
    subst this
    rfl
  | cons p ps ih =>
    intro pairs h
    cases pairs with
    | nil => simp at h
    | cons q qs =>
      have hlen : ps.length = qs.length := by simpa using h
      show (q.1 :: q.2 :: flatIds (ps.zip (qs.map PostIds.new)))
          = q.1 :: q.2 :: qs.flatMap (fun p => [p.1, p.2])
      rw [ih qs hlen]

/-! ## Claim C2 -/

/-- C2: a successful batch setup over a list of `N` posts inserts exactly
`2N + 3` new entries into the registry, none of whose ids were present
before, and the allocated ids are exactly the first `2N + 3` non-negative
integers, scanned ascending from zero, that were not already keys.  The
write guard that the source holds from entry to return of `setup_links`
(allocation and every insert go through the one guard) is modelled by
`setup_links` being a single atomic transition on the registry. -/
theorem c2_setup_links_allocation (fetch : String → Option Image)
    (previewImg : Option Image) (m : LinkMap) (posts : List Post) :
    FirstFreeIds m (2 * posts.length + 3) (m.free_ids (2 * posts.length + 3)) ∧
    (∀ k ∈ m.free_ids (2 * posts.length + 3), m.contains_key k = false) ∧
    (setup_links fetch previewImg m posts).1.inner.length
        = m.inner.length + (2 * posts.length + 3) ∧
    ∀ j, ((setup_links fetch previewImg m posts).1.contains_key j = true)
        ↔ (m.contains_key j = true ∨ j ∈ m.free_ids (2 * posts.length + 3)) := by
  have hspec := free_ids_spec m (2 * posts.length + 3)
  have hnd := free_ids_nodup m (2 * posts.length + 3)
  set alloc := m.free_ids (2 * posts.length + 3) with halloc
  obtain ⟨hlen, hpair, hfree, _⟩ := hspec
  refine ⟨⟨hlen, hpair, hfree, (free_ids_spec m _).2.2.2⟩, hfree, ?_⟩
  -- lengths of the take/drop split of the allocation
  have htakelen : (alloc.take (2 * posts.length)).length = 2 * posts.length := by
    rw [List.length_take]
    omega
  have hdroplen : (alloc.drop (2 * posts.length)).length = 3 := by
    rw [List.length_drop]
    omega
  obtain ⟨a, b, c, hrest⟩ := List.length_eq_three.mp hdroplen
  -- the post id assignments cover exactly the first 2N allocated ids
  have hplen0 : posts.length = (pairUp (alloc.take (2 * posts.length))).length :=
    (pairUp_length posts.length _ htakelen).symm
  have hplen : posts.length = ((pairUp (alloc.take (2 * posts.length))).map PostIds.new).length := by
    rw [List.length_map]
    exact hplen0
  have hflat : flatIds (posts.zip ((pairUp (alloc.take (2 * posts.length))).map PostIds.new))
      = alloc.take (2 * posts.length) := by
    rw [flatIds_zip _ _ hplen0, pairUp_flatMap posts.length _ htakelen]
  set post_ids := posts.zip ((pairUp (alloc.take (2 * posts.length))).map PostIds.new)
    with hpids
  have hpostlen : post_ids.length = posts.length := by
    rw [hpids, List.length_zip, ← hplen, Nat.min_self]
  -- freshness and distinctness of the first 2N ids
  have hndtake : (alloc.take (2 * posts.length)).Nodup :=
    (List.take_sublist _ _).nodup hnd
  have hfreshtake : ∀ i ∈ alloc.take (2 * posts.length), m.contains_key i = false :=
    fun i hi => hfree i (List.mem_of_mem_take hi)
  -- split of the allocation and disjointness of its two halves
  have hsplit : alloc.take (2 * posts.length) ++ [a, b, c] = alloc := by
    rw [← hrest]
    exact List.take_append_drop _ _
  have hdisj : (alloc.take (2 * posts.length)).Disjoint [a, b, c] := by
    have := hnd
    rw [← hsplit] at this
    exact (List.nodup_append.mp this).2.2
  have hnddrop : ([a, b, c] : List Nat).Nodup := by
    rw [← hrest]
    exact (List.drop_sublist _ _).nodup hnd
  have hmemabc : ∀ x ∈ ([a, b, c] : List Nat), x ∈ alloc := by
    intro x hx
    rw [← hsplit]
    exact List.mem_append.mpr (Or.inr hx)
  have hfreeabc : ∀ x ∈ ([a, b, c] : List Nat), m.contains_key x = false :=
    fun x hx => hfree x (hmemabc x hx)
  -- the header identifiers produced by get_free_ids
  have hhdr : (m.get_free_ids posts).2
      = ({ search_map := a, preview := b, refresh := c } : HeaderIds) := by
    simp only [LinkMap.get_free_ids, ← halloc, hrest]
    rfl
  have hpid2 : (m.get_free_ids posts).1 = post_ids := rfl
  -- run the loop
  have hloop := setup_loop_registry fetch post_ids m
    (SeachMapBuilder.new_with_header { search_map := a, preview := b, refresh := c }) []
    (by rw [hflat]; exact hndtake)
    (by rw [hflat]; exact hfreshtake)
  set st := setup_loop fetch post_ids
    (m, SeachMapBuilder.new_with_header { search_map := a, preview := b, refresh := c }, [])
    with hst
  -- the three header inserts are fresh
  have hfb : st.1.contains_key b = false := by
    rw [contains_key_false_iff, hloop.2, hflat]
    push_neg
    constructor
    · have := hfreeabc b (by simp)
      rw [contains_key_false_iff] at this
      exact this
    · intro hmem
      exact hdisj hmem (by simp)
  have hfa : (st.1.insert b (Link.previews previewImg)).contains_key a = false := by
    rw [contains_key_false_iff, contains_key_insert _ _ _ _ hfb]
    push_neg
    refine ⟨?_, ?_⟩
    · intro h
      exact (List.nodup_cons.mp hnddrop).1 (by simp [h])
    · intro h
      rw [hloop.2, hflat] at h
      rcases h with h | h
      · have := hfreeabc a (by simp)
        rw [this] at h
        cases h
      · exact hdisj h (by simp)
  have hfc : ((st.1.insert b (Link.previews previewImg)).insert a
      (Link.searchMap (st.2.1.into_query))).contains_key c = false := by
    rw [contains_key_false_iff, contains_key_insert _ _ _ _ hfa,
      contains_key_insert _ _ _ _ hfb]
    push_neg
    refine ⟨?_, ?_, ?_⟩
    · intro h
      exact (List.nodup_cons.mp hnddrop).1 (by simp [h])
    · intro h
      exact (List.nodup_cons.mp (List.nodup_cons.mp hnddrop).2).1 (by simp [h])
    · intro h
      rw [hloop.2, hflat] at h
      rcases h with h | h
      · have := hfreeabc c (by simp)
        rw [this] at h
        cases h
      · exact hdisj h (by simp)
  -- unfold setup_links into the loop result plus the three header inserts
  have hfinal : (setup_links fetch previewImg m posts).1
      = ((st.1.insert b (Link.previews previewImg)).insert a
          (Link.searchMap (st.2.1.into_query))).insert c
          (Link.refreshSearch (Refresher.many (post_ids.length + 1))) := by
    simp only [setup_links, hpid2, hhdr]
    rfl
  constructor
  · rw [hfinal, length_insert _ _ _ hfc, length_insert _ _ _ hfa,
      length_insert _ _ _ hfb, hloop.1, hpostlen]
    omega
  · intro j
    rw [hfinal, contains_key_insert _ _ _ _ hfc, contains_key_insert _ _ _ _ hfa,
      contains_key_insert _ _ _ _ hfb, hloop.2, hflat]
    have hcover : j ∈ alloc ↔ j ∈ alloc.take (2 * posts.length) ∨ j = a ∨ j = b ∨ j = c := by
      conv_lhs => rw [← hsplit]
      simp only [List.mem_append, List.mem_cons, List.mem_singleton,
        List.not_mem_nil, or_false]
    rw [hcover]
    constructor
    · rintro (h | h | h | h | h)
      · exact Or.inr (Or.inr (Or.inr (Or.inr h)))
      · exact Or.inr (Or.inr (Or.inl h))
      · exact Or.inr (Or.inr (Or.inr (Or.inl h)))
      · exact Or.inl h
      · exact Or.inr (Or.inl h)
    · rintro (h | h | h | h | h)
      · exact Or.inr (Or.inr (Or.inr (Or.inl h)))
      · exact Or.inr (Or.inr (Or.inr (Or.inr h)))
      · exact Or.inr (Or.inl h)
      · exact Or.inr (Or.inr (Or.inl h))
      · exact Or.inl h

/-! ## refresh.rs: the keepalive state machine -/

/-- State of one refresh attachment: alive with some remaining time, or
expired (the loop has broken and the teardown has run). -/
inductive RState where
  | alive (remaining : Nat)
  | expired
  deriving Repr, DecidableEq

/-- Events seen by an attachment loop: a keepalive pulse on one of the
channels it selects over, or one time unit elapsing. -/
inductive REvent where
  | pulse
  | tick
  deriving Repr, DecidableEq

/-- One step of the select loop of `attach`/`attach_with_local` for an
attachment of duration `d`, discretized to time units: a pulse while alive
restarts the loop, which resets the sleep to the full duration; when the
duration elapses the loop breaks and the teardown future runs (the flag
records that the teardown ran in this step).  The expired state is
terminal: the task has ended and reacts to no further event. -/
def rstep (d : Nat) : RState → REvent → RState × Bool
  | .alive _, .pulse => (.alive d, false)
  | .alive r, .tick => if r ≤ 1 then (.expired, true) else (.alive (r - 1), false)
  | .expired, _ => (.expired, false)

/-- Run an attachment of duration `d` from a state over a list of events,
counting how many times the teardown ran. -/
def rrun (d : Nat) (s : RState) : List REvent → RState × Nat
  | [] => (s, 0)
  | e :: es =>
    let s2 := rstep d s e
    let s3 := rrun d s2.1 es
    (s3.1, (if s2.2 then 1 else 0) + s3.2)

theorem rrun_expired (d : Nat) : ∀ es, rrun d .expired es = (.expired, 0) := by
  intro es
  induction es with
  | nil => rfl
  | cons e es ih =>
    show ((rrun d (rstep d .expired e).1 es).1, _) = _
    cases e <;> simp [rstep, rrun, ih]

theorem rrun_teardown_once (d : Nat) :
    ∀ (es : List REvent) (r : Nat),
      (rrun d (.alive r) es).2 ≤ 1 ∧
      ((rrun d (.alive r) es).1 = .expired ↔ (rrun d (.alive r) es).2 = 1) := by
  intro es
  induction es with
  | nil =>
    intro r
    exact ⟨by simp [rrun], by simp [rrun]⟩
  | cons e es ih =>
    intro r
    cases e with
    | pulse =>
      have h : rrun d (.alive r) (.pulse :: es) = rrun d (.alive d) es := by
        simp [rrun, rstep]
      rw [h]
      exact ih d
    | tick =>
      by_cases hr : r ≤ 1
      · have h : rrun d (.alive r) (.tick :: es)
            = ((rrun d .expired es).1, 1 + (rrun d .expired es).2) := by
          simp [rrun, rstep, hr]
        rw [h, rrun_expired]
        simp
      · have h : rrun d (.alive r) (.tick :: es) = rrun d (.alive (r - 1)) es := by
          simp [rrun, rstep, hr]
        rw [h]
        exact ih (r - 1)

theorem rrun_timeout (d : Nat) :
    ∀ r, 1 ≤ r → rrun d (.alive r) (List.replicate r .tick) = (.expired, 1) := by
  intro r
  induction r with
  | zero => intro h; omega
  | succ n ih =>
    intro _
    by_cases hn : n = 0
    · subst hn
      simp [rrun, rstep, rrun_expired]
    · have h1 : List.replicate (n + 1) REvent.tick = .tick :: List.replicate n .tick :=
        rfl
      have hstep : rstep d (.alive (n + 1)) .tick = (.alive n, false) := by
        simp [rstep]
        omega
      rw [h1]
      show ((rrun d (rstep d (.alive (n + 1)) .tick).1 (List.replicate n .tick)).1, _) = _
      rw [hstep]
      have := ih (by omega)
      simp [this]

/-- The attachments armed by the per-post loop of `setup_links`. -/
theorem setup_loop_attachments (fetch : String → Option Image) :
    ∀ (l : List (Post × PostIds)) (m : LinkMap) (b : SeachMapBuilder) (atts : List Attachment),
      (setup_loop fetch l (m, b, atts)).2.2
        = atts ++ l.map (fun pi => { duration := 1200, kind := .individual,
                                     removes := [pi.2.post, pi.2.refresh] }) := by
  intro l
  induction l with
  | nil => intro m b atts; simp [setup_loop]
  | cons pi rest ih =>
    rcases pi with ⟨post, ids⟩
    intro m b atts
    show (setup_loop fetch rest (_, _, _)).2.2 = _
    rw [ih]
    simp

/-! ## Claim C5 -/

/-- C5: each attached resource follows the keepalive state machine: a pulse
while alive resets the remaining time to the full duration and stays
alive; when the duration elapses with no pulse the attachment reaches the
terminal expired state, and the teardown (which removes the attachment
registry ids) runs exactly once, on that transition; and `setup_links`
attaches every image resource with duration 1200 and an individual
refresher, while the blob and the preview share the single group
attachment of duration 600. -/
theorem c5_refresh_state_machine :
    (∀ d r, rstep d (.alive r) .pulse = (.alive d, false)) ∧
    (∀ d e, rstep d .expired e = (.expired, false)) ∧
    (∀ d r, 1 ≤ r → rrun d (.alive r) (List.replicate r .tick) = (.expired, 1)) ∧
    (∀ d es r, (rrun d (.alive r) es).2 ≤ 1 ∧
      ((rrun d (.alive r) es).1 = .expired ↔ (rrun d (.alive r) es).2 = 1)) ∧
    (∀ fetch previewImg m posts,
      (setup_links fetch previewImg m posts).2.2
        = (m.get_free_ids posts).1.map
            (fun pi => { duration := 1200, kind := .individual,
                         removes := [pi.2.post, pi.2.refresh] })
          ++ [{ duration := 600, kind := .group,
                removes := [(m.get_free_ids posts).2.search_map,
                  (m.get_free_ids posts).2.refresh,
                  (m.get_free_ids posts).2.preview] }]) := by
  refine ⟨fun d r => rfl, fun d e => by cases e <;> rfl,
    rrun_timeout, fun d es r => rrun_teardown_once d es r, ?_⟩
  intro fetch previewImg m posts
  show (setup_loop fetch (m.get_free_ids posts).1
      (m, SeachMapBuilder.new_with_header (m.get_free_ids posts).2, [])).2.2 ++ _ = _
  rw [setup_loop_attachments]
  simp

/-- Witness for C5 at concrete durations, states and event traces. -/
theorem c5_refresh_state_machine_witness :
    rstep 600 (.alive 7) .pulse = (.alive 600, false) ∧
    (1 ≤ 1200 ∧ rrun 1200 (.alive 1200) (List.replicate 1200 .tick) = (.expired, 1)) :=
  ⟨c5_refresh_state_machine.1 600 7,
    by decide, c5_refresh_state_machine.2.2.1 1200 1200 (by decide)⟩

/-! ## Claim C8 -/

/-- Embeds `Refresher::refresh`.  For `One`, `try_send` places a pulse only
when the capacity one slot is empty and the receiving task still exists,
and otherwise drops the pulse (the `Result` is dropped either way); for
`Many`, a broadcast delivered to the current subscribers, whose error when
none remain is dropped.  The middle component counts the receivers that
observe the pulse.  The registry is passed through to record that
refreshing never reads or writes it. -/
def Refresher.refresh (r : Refresher) (reg : LinkMap) : Refresher × Nat × LinkMap :=
  match r with
  | .one pending alive =>
    if alive = true ∧ pending = 0 then (.one 1 alive, 1, reg)
    else (.one pending alive, 0, reg)
  | .many subs => (.many subs, subs, reg)

/-- C8: `Refresher::refresh` never blocks (it is a total function of the
channel state), never errors (both error results are dropped), and never
touches the registry; for an `Individual` refresher the pulse is dropped
when one is already pending or when the receiving task has ended, and for
a `Group` refresher the broadcast reaches the current subscribers, a
no-op when none remain. -/
theorem c8_refresh_best_effort :
    (∀ r reg, (Refresher.refresh r reg).2.2 = reg) ∧
    (∀ p a reg, 1 ≤ p →
      Refresher.refresh (.one p a) reg = (.one p a, 0, reg)) ∧
    (∀ p reg, Refresher.refresh (.one p false) reg = (.one p false, 0, reg)) ∧
    (∀ reg, Refresher.refresh (.one 0 true) reg = (.one 1 true, 1, reg)) ∧
    (∀ reg, Refresher.refresh (.many 0) reg = (.many 0, 0, reg)) ∧
    (∀ subs reg, (Refresher.refresh (.many subs) reg).1 = .many subs ∧
      (Refresher.refresh (.many subs) reg).2.1 = subs) := by
  refine ⟨?_, ?_, ?_, ?_, ?_, ?_⟩
  · intro r reg
    rcases r with ⟨p, a⟩ | s
    · by_cases h : a = true ∧ p = 0 <;> simp [Refresher.refresh, h]
    · rfl
  · intro p a reg hp
    have h : ¬ (a = true ∧ p = 0) := by omega
    simp [Refresher.refresh, h]
  · intro p reg
    have h : ¬ ((false : Bool) = true ∧ p = 0) := by simp
    simp [Refresher.refresh]
  · intro reg
    rfl
  · intro reg
    rfl
  · intro subs reg
    exact ⟨rfl, rfl⟩

/-- Witness for C8 at a concrete pending pulse count. -/
theorem c8_refresh_best_effort_witness :
    1 ≤ 1 ∧ Refresher.refresh (.one 1 true) ⟨[]⟩ = (.one 1 true, 0, ⟨[]⟩) :=
  ⟨by decide, c8_refresh_best_effort.2.1 1 true ⟨[]⟩ (by decide)⟩

/-! ## main.rs: query string page parsing (the `/s/:query` handler) -/

/-- Whitespace predicate used for trim and split (ASCII approximation of
the Unicode whitespace classes of the Rust `str` methods; the characters
the claim turns on, digits and plus signs, are classified identically). -/
def isWS (c : Char) : Bool := c.isWhitespace

/-- Embeds `str::trim` on a character list. -/
def trimChars (l : List Char) : List Char :=
  ((l.dropWhile isWS).reverse.dropWhile isWS).reverse

/-- Helper of `split_whitespace`: split on whitespace runs, accumulating
the current token in reverse. -/
def splitWSAux : List Char → List Char → List (List Char)
  | [], acc => if acc.isEmpty then [] else [acc.reverse]
  | c :: cs, acc =>
    if isWS c then
      if acc.isEmpty then splitWSAux cs []
      else acc.reverse :: splitWSAux cs []
    else splitWSAux cs (c :: acc)

/-- Embeds `str::split_whitespace` on a character list. -/
def split_whitespace (l : List Char) : List (List Char) :=
  splitWSAux l []

/-- Embeds `str::parse::<usize>` on a character list: an optional leading
plus sign, then one or more ASCII digits, rejecting values that overflow
a 64 bit usize. -/
def parse_usize_chars (l : List Char) : Option Nat :=
  let ds := match l with
    | '+' :: rest => rest
    | other => other
  if ds ≠ [] ∧ ds.all Char.isDigit then
    let v := ds.foldl (fun acc c => acc * 10 + (c.toNat - 48)) 0
    if v < 2 ^ 64 then some v else none
  else none

/-- Embeds the page splitting of the `search` handler in main.rs: trim the
query; if its last whitespace separated token parses as a usize, that
token becomes the page and the query is cut to
`query.len() - page.len()` bytes, where `page` still holds the one
character replacement string at that point.  (In the taken branch the cut
character is an ASCII digit, so byte and character truncation agree.) -/
def search_page_split (query : List Char) : List Char × List Char :=
  let query := trimChars query
  let page := ("1" : String).toList
  match (split_whitespace query).getLast? with
  | some tpage =>
    if (parse_usize_chars tpage).isSome then
      (query.take (query.length - page.length), tpage)
    else (query, page)
  | none => (query, page)

theorem splitWSAux_tokens :
    ∀ (l acc t : List Char), t ∈ splitWSAux l acc →
      t ≠ [] ∧ t.length ≤ l.length + acc.length := by
  intro l
  induction l with
  | nil =>
    intro acc t ht
    by_cases hacc : acc.isEmpty
    · rw [splitWSAux, if_pos hacc] at ht
      cases ht
    · rw [splitWSAux, if_neg hacc] at ht
      rcases List.mem_singleton.mp ht with rfl
      refine ⟨?_, by simp⟩
      intro h
      rw [List.reverse_eq_nil_iff] at h
      rw [h] at hacc
      exact hacc rfl
  | cons c cs ih =>
    intro acc t ht
    by_cases hc : isWS c
    · by_cases hacc : acc.isEmpty
      · rw [splitWSAux, if_pos hc, if_pos hacc] at ht
        have := ih [] t ht
        exact ⟨this.1, by simp at this ⊢; omega⟩
      · rw [splitWSAux, if_pos hc, if_neg hacc] at ht
        rcases List.mem_cons.mp ht with rfl | hmem
        · refine ⟨?_, by simp⟩
          intro h
          rw [List.reverse_eq_nil_iff] at h
          rw [h] at hacc
          exact hacc rfl
        · have := ih [] t hmem
          exact ⟨this.1, by simp at this ⊢; omega⟩
    · rw [splitWSAux, if_neg hc] at ht
      have := ih (c :: acc) t ht
      exact ⟨this.1, by simp at this ⊢; omega⟩

/-! ## Claim C6 -/

/-- C6: in the search handler, whenever the last whitespace separated
token of the trimmed query parses as a non-negative integer, that token
becomes the page while the query is shortened by the length of the
replacement page string (the one character string of the digit one), not
by the length of the original token; the shortened query equals the
token-stripped query exactly when the token is one character long. -/
theorem c6_page_trim_uses_replacement_length (q tok : List Char) (n : Nat)
    (hlast : (split_whitespace (trimChars q)).getLast? = some tok)
    (hparse : parse_usize_chars tok = some n) :
    search_page_split q = ((trimChars q).take ((trimChars q).length - 1), tok) ∧
    (((trimChars q).take ((trimChars q).length - 1)
        = (trimChars q).take ((trimChars q).length - tok.length))
      ↔ tok.length = 1) := by
  have hbounds := splitWSAux_tokens (trimChars q) [] tok
    (List.mem_of_mem_getLast? hlast)
  have htne : tok ≠ [] := hbounds.1
  have htlen : tok.length ≤ (trimChars q).length := by
    have := hbounds.2
    simpa using this
  have htpos : 1 ≤ tok.length := by
    cases tok with
    | nil => exact absurd rfl htne
    | cons a t => simp
  constructor
  · have h1 : ("1" : String).toList.length = 1 := rfl
    simp only [search_page_split, hlast, hparse, h1, Option.isSome_some, if_true]
  · constructor
    · intro heq
      have hlen := congrArg List.length heq
      rw [List.length_take, List.length_take] at hlen
      omega
    · intro h
      rw [h]

/-- Witness for C6 on the query string consisting of the word cat and the
two digit page token. -/
theorem c6_page_trim_witness :
    (split_whitespace (trimChars ("cat 23".toList))).getLast? = some ("23".toList) ∧
    parse_usize_chars ("23".toList) = some 23 ∧
    search_page_split ("cat 23".toList)
      = ((trimChars ("cat 23".toList)).take ((trimChars ("cat 23".toList)).length - 1),
          "23".toList) :=
  ⟨by decide, by decide,
    (c6_page_trim_uses_replacement_length ("cat 23".toList) ("23".toList) 23
      (by decide) (by decide)).1⟩

/-! ## main.rs: the `/link/:id` handler -/

/-- Responses of the embedded handler: a text body or image bytes (each
carrying a fixed content type header in the source). -/
inductive HttpResponse where
  | text (s : String)
  | imageResp (i : Image)
  deriving Repr, DecidableEq

/-- Modelled from the spec: `Image::placeholder` is called by main.rs but
its definition is not among the sources under src/; the spec says a failed
image fetch is downgraded to an absent value served as a placeholder
image, so the model uses one fixed placeholder image. -/
def Image.placeholder : Image :=
  { data := [], mime_type := "image/png" }

/-- Embeds the match of the `link` handler over the found variant: a
search map serves its frozen string, the two refresher variants pulse
their channel and serve the fixed TTL literal, and the two image variants
serve the awaited image, or the placeholder when it is absent. -/
def serve_link (l : Link) : HttpResponse :=
  match l with
  | .searchMap sm => .text sm
  | .refreshSearch _ => .text "600000"
  | .previews img => .imageResp (img.getD Image.placeholder)
  | .image img => .imageResp (img.getD Image.placeholder)
  | .refreshImage _ => .text "1200000"

/-- Embeds the `link` handler of main.rs: parse the id, look it up in the
registry, answer the fixed expired text when either step fails, and
otherwise serve according to the variant. -/
def link (m : LinkMap) (id : String) : HttpResponse :=
  match parse_usize_chars id.toList with
  | none => .text "Link expired"
  | some n =>
    match m.get n with
    | none => .text "Link expired"
    | some l => serve_link l

/-! ## Claim C9 -/

/-- C9: for every id string that does not parse as an integer and for
every parsed id absent from the registry, the handler returns the fixed
text Link expired; for every id present at lookup time the handler serves
the resource according to its variant; the handler is a total function,
so no input produces an internal error. -/
theorem c9_link_expired_dichotomy (m : LinkMap) (id : String) :
    (parse_usize_chars id.toList = none → link m id = .text "Link expired") ∧
    (∀ n, parse_usize_chars id.toList = some n → m.get n = none →
      link m id = .text "Link expired") ∧
    (∀ n l, parse_usize_chars id.toList = some n → m.get n = some l →
      link m id = serve_link l) ∧
    (link m id = .text "Link expired" ∨
      ∃ n l, parse_usize_chars id.toList = some n ∧ m.get n = some l ∧
        link m id = serve_link l) := by
  refine ⟨?_, ?_, ?_, ?_⟩
  · intro h
    unfold link
    rw [h]
  · intro n hp hg
    unfold link
    rw [hp]
    simp [hg]
  · intro n l hp hg
    unfold link
    rw [hp]
    simp [hg]
  · cases hp : parse_usize_chars id.toList with
    | none => exact Or.inl (by unfold link; rw [hp])
    | some n =>
      cases hg : m.get n with
      | none => exact Or.inl (by unfold link; rw [hp]; simp [hg])
      | some l =>
        exact Or.inr ⟨n, l, rfl, hg, by unfold link; rw [hp]; simp [hg]⟩

/-- Witness for C9: a present id is served and an unparsable id expires,
on a one entry registry. -/
theorem c9_link_expired_witness :
    parse_usize_chars ("3" : String).toList = some 3 ∧
    (LinkMap.mk [(3, Link.searchMap "hello")]).get 3 = some (Link.searchMap "hello") ∧
    link ⟨[(3, Link.searchMap "hello")]⟩ "3" = serve_link (Link.searchMap "hello") ∧
    link ⟨[(3, Link.searchMap "hello")]⟩ "x" = .text "Link expired" :=
  ⟨by decide, by decide,
    (c9_link_expired_dichotomy ⟨[(3, Link.searchMap "hello")]⟩ "3").2.2.1 3
      (Link.searchMap "hello") (by decide) (by decide),
    (c9_link_expired_dichotomy ⟨[(3, Link.searchMap "hello")]⟩ "x").1 (by decide)⟩

/-! ## promise.rs: the eager Promise

`Promise::new` clones the cell, spawns a task that first CREATES the
`get_or_init` future (an async fn call, inert until polled), then waits at
a two party barrier, and only after that polls the future, which is the
point where the once cell initialization permit is acquired; `new` itself
waits at the barrier and then returns.  `get` polls
`get_or_init(future::pending)` on the shared cell, so a reader that wins
the permit drives a never completing future.  The model below is a
small-step interleaving semantics of the producer task and one reader
task with the permit made explicit. -/

/-- Holder of the once cell initialization permit. -/
inductive Who where
  | producer
  | reader
  deriving Repr, DecidableEq

/-- Program counter of the task spawned by `Promise::new`. -/
inductive PPc where
  | start
  | postBarrier
  | driving (k : Nat)
  | doneP
  deriving Repr, DecidableEq

/-- Program counter of a reader calling `get` after `new` returned. -/
inductive GPc where
  | outside
  | waitingSem
  | drivingPending
  | got
  deriving Repr, DecidableEq

/-- Global state of one `Promise` with its producer task and one reader. -/
structure PromiseState where
  value : Option Nat
  permit : Option Who
  producer : PPc
  newReturned : Bool
  reader : GPc
  deriving Repr, DecidableEq

/-- Initial state: the task is spawned, nothing is polled, `new` has not
returned. -/
def pinit : PromiseState :=
  { value := none, permit := none, producer := .start, newReturned := false,
    reader := .outside }

/-- One scheduling step: `true` runs the producer task, `false` the
reader.  The producer at `start` creates the initer future and reaches
the barrier, releasing the `new` caller (both sides of the two party
barrier pass together).  At `postBarrier` it polls the initer: it
acquires the permit if free (then drives the wrapped computation, `fuel`
steps, completing with `v`), and otherwise waits on the cell semaphore.
The reader is enabled only once `new` returned; its `get_or_init(pending)`
returns a present value, else acquires the permit if free and then drives
`pending`, which never completes, else waits on the semaphore. -/
def pstep (fuel v : Nat) (s : PromiseState) (who : Bool) : PromiseState :=
  if who then
    match s.producer with
    | .start => { s with producer := .postBarrier, newReturned := true }
    | .postBarrier =>
      match s.value with
      | some _ => { s with producer := .doneP }
      | none =>
        match s.permit with
        | none => { s with permit := some .producer, producer := .driving fuel }
        | some _ => s
    | .driving 0 =>
      { s with value := some v, permit := none, producer := .doneP }
    | .driving (k + 1) => { s with producer := .driving k }
    | .doneP => s
  else
    if s.newReturned then
      match s.reader with
      | .outside | .waitingSem =>
        match s.value with
        | some _ => { s with reader := .got }
        | none =>
          match s.permit with
          | none => { s with permit := some .reader, reader := .drivingPending }
          | some _ => { s with reader := .waitingSem }
      | .drivingPending => s
      | .got => s
    else s

/-- Run the promise model under a schedule. -/
def pexec (fuel v : Nat) (s : PromiseState) (sched : List Bool) : PromiseState :=
  sched.foldl (pstep fuel v) s

/-- Once a reader holds the permit of the empty cell while the producer is
still stuck before its first poll, the system is wedged: the reader
drives a never completing future, so the cell is never filled. -/
theorem pexec_wedged (fuel v : Nat) (s : PromiseState)
    (h1 : s.permit = some .reader) (h2 : s.value = none)
    (h3 : s.producer = .postBarrier) (h4 : s.reader = .drivingPending) :
    ∀ sched, (pexec fuel v s sched).value = none := by
  intro sched
  induction sched generalizing s with
  | nil => exact h2
  | cons c cs ih =>
    show (pexec fuel v (pstep fuel v s c) cs).value = none
    have hstep : pstep fuel v s c = s := by
      cases c with
      | true => simp [pstep, h1, h2, h3]
      | false =>
        by_cases hn : s.newReturned <;> simp [pstep, hn, h4]
    rw [hstep]
    exact ih s h1 h2 h3 h4

/-! ## Claim C3 -/

/-- C3 (the code violates the claim): after `Promise::new` returns, the
spawned task has only passed the barrier; it does not yet own the cell,
because the `get_or_init` future it created is not polled until after the
rendezvous.  In the two step schedule producer-then-reader, `new` has
returned and the very first `get` poll hands the initialization permit to
the reader while the producer still sits before its first poll of the
initer future; from that state no schedule ever fills the cell, since the
reader drives `future::pending`.  This contradicts the claim that no
later reader can acquire initialization rights before the producer. -/
theorem c3_rendezvous_race (fuel v : Nat) :
    (pexec fuel v pinit [true, false]).newReturned = true ∧
    (pexec fuel v pinit [true, false]).permit = some .reader ∧
    (pexec fuel v pinit [true, false]).value = none ∧
    (pexec fuel v pinit [true, false]).producer = .postBarrier ∧
    (pexec fuel v pinit [true, false]).reader = .drivingPending ∧
    ∀ sched, (pexec fuel v (pexec fuel v pinit [true, false]) sched).value = none := by
  refine ⟨rfl, rfl, rfl, rfl, rfl, ?_⟩
  exact pexec_wedged fuel v _ rfl rfl rfl rfl

/-! ## promise.rs: the lazy promise

`LazyPromise` stores the boxed future behind a mutex next to the shared
once cell.  `get` polls `get_or_init(|| self.init())` on the cell: the
caller that wins the cell initialization permit invokes `init`, which
`try_lock`s the future mutex (the `expect("locked twice")` usage error)
and drives the stored future to completion; every other concurrent caller
waits on the cell semaphore and observes the value once it is set.  The
model below is a small-step interleaving semantics over any number of
reader tasks sharing one cell, with the permit, the mutex and the panic
made explicit, and a completion counter recording how often the wrapped
computation ran to completion. -/

/-- State of one caller of `LazyPromise::get`. -/
inductive LRead where
  | outside
  | waitingSem
  | driving (k : Nat)
  | doneR (res : Nat)
  deriving Repr, DecidableEq

/-- State of one `LazyPromise` shared by several callers of `get`. -/
structure LazyState where
  value : Option Nat
  permit : Option Nat
  lockedBy : Option Nat
  completions : Nat
  panicked : Bool
  readers : List LRead
  deriving Repr, DecidableEq

/-- Initial state: an unstarted computation shared by `n` callers. -/
def linit (n : Nat) : LazyState :=
  { value := none, permit := none, lockedBy := none, completions := 0,
    panicked := false, readers := List.replicate n .outside }

/-- One scheduling step running reader `i` (out of range indices are
no-ops).  A reader polling `get_or_init` returns the value if present,
waits if the permit is taken, and otherwise acquires the permit and
enters `init`: its `try_lock` panics if the mutex is somehow held,
else it locks the mutex and drives the stored future, `fuel` steps,
completing with `v`, which fills the cell, bumps the completion count
and releases mutex and permit. -/
def lstep (fuel v : Nat) (s : LazyState) (i : Nat) : LazyState :=
  match s.readers[i]? with
  | none => s
  | some r =>
    match r with
    | .outside | .waitingSem =>
      match s.value with
      | some w => { s with readers := s.readers.set i (.doneR w) }
      | none =>
        match s.permit with
        | some _ => { s with readers := s.readers.set i .waitingSem }
        | none =>
          match s.lockedBy with
          | some _ => { s with panicked := true }
          | none =>
            { s with permit := some i, lockedBy := some i,
                     readers := s.readers.set i (.driving fuel) }
    | .driving 0 =>
      { s with value := some v, permit := none, lockedBy := none,
               completions := s.completions + 1,
               readers := s.readers.set i (.doneR v) }
    | .driving (k + 1) => { s with readers := s.readers.set i (.driving k) }
    | .doneR _ => s

/-- Run the lazy promise model under a schedule of reader indices. -/
def lexec (fuel v : Nat) (s : LazyState) (sched : List Nat) : LazyState :=
  sched.foldl (lstep fuel v) s

/-- Invariant of the lazy promise model: no panic has fired, the mutex is
held exactly by the permit holder, the permit holder is exactly the
driving reader, the value is only set by a completed run (with `v`, once,
after which nobody holds the permit), every finished reader got `v`, and
the computation completed at most once. -/
def LInv (v : Nat) (s : LazyState) : Prop :=
  s.panicked = false ∧
  s.lockedBy = s.permit ∧
  (∀ (i k : Nat), s.readers[i]? = some (LRead.driving k) → s.permit = some i) ∧
  (∀ (i : Nat), s.permit = some i → ∃ k, s.readers[i]? = some (LRead.driving k)) ∧
  (s.value = none → s.completions = 0) ∧
  (∀ w, s.value = some w → w = v ∧ s.completions = 1 ∧ s.permit = none) ∧
  (∀ (i w : Nat), s.readers[i]? = some (LRead.doneR w) → w = v) ∧
  s.completions ≤ 1

theorem linv_init (v n : Nat) : LInv v (linit n) := by
  refine ⟨rfl, rfl, ?_, ?_, fun _ => rfl, ?_, ?_, by simp [linit]⟩
  · intro i k h
    rcases List.mem_replicate.mp (List.getElem?_mem h) with ⟨_, h2⟩
    cases h2
  · intro i h
    cases h
  · intro w h
    cases h
  · intro i w h
    rcases List.mem_replicate.mp (List.getElem?_mem h) with ⟨_, h2⟩
    cases h2

theorem lt_length_of_get?_eq_some {l : List LRead} {i : Nat} {r : LRead}
    (h : l[i]? = some r) : i < l.length := by
  by_contra hc
  push_neg at hc
  rw [List.getElem?_eq_none_iff.mpr hc] at h
  cases h

theorem linv_step_poll (fuel v : Nat) (s : LazyState) (i : Nat) (hinv : LInv v s)
    (r : LRead) (hr : s.readers[i]? = some r)
    (hro : r = .outside ∨ r = .waitingSem) :
    LInv v (lstep fuel v s i) := by
  obtain ⟨hpan, hlock, hdrv, hper, hcmp0, hval, hdone, hcle⟩ := hinv
  have hilen : i < s.readers.length := lt_length_of_get?_eq_some hr
  cases hv : s.value with
  | some w =>
    have hw := hval w hv
    have hstep : lstep fuel v s i = { s with readers := s.readers.set i (.doneR w) } := by
      rcases hro with rfl | rfl <;> simp only [lstep, hr, hv]
    rw [hstep]
    refine ⟨hpan, hlock, ?_, ?_, ?_, ?_, ?_, hcle⟩
    · intro j k hj
      replace hj : (s.readers.set i (LRead.doneR w))[j]? = some (LRead.driving k) := hj
      by_cases hij : i = j
      · subst hij
        rw [List.getElem?_set_self hilen] at hj
        cases hj
      · rw [List.getElem?_set_ne hij] at hj
        exact hdrv j k hj
    · intro j hj
      replace hj : s.permit = some j := hj
      rw [hw.2.2] at hj
      cases hj
    · intro h
      replace h : s.value = none := h
      rw [hv] at h
      cases h
    · intro w2 hw2
      replace hw2 : s.value = some w2 := hw2
      rw [hv] at hw2
      cases hw2
      exact hw
    · intro j w2 hj
      replace hj : (s.readers.set i (LRead.doneR w))[j]? = some (LRead.doneR w2) := hj
      by_cases hij : i = j
      · subst hij
        rw [List.getElem?_set_self hilen] at hj
        cases hj
        exact hw.1
      · rw [List.getElem?_set_ne hij] at hj
        exact hdone j w2 hj
  | none =>
    cases hp : s.permit with
    | some p =>
      have hstep : lstep fuel v s i = { s with readers := s.readers.set i .waitingSem } := by
        rcases hro with rfl | rfl <;> simp only [lstep, hr, hv, hp]
      rw [hstep]
      refine ⟨hpan, hlock, ?_, ?_, hcmp0, ?_, ?_, hcle⟩
      · intro j k hj
        replace hj : (s.readers.set i LRead.waitingSem)[j]? = some (LRead.driving k) := hj
        by_cases hij : i = j
        · subst hij
          rw [List.getElem?_set_self hilen] at hj
          cases hj
        · rw [List.getElem?_set_ne hij] at hj
          exact hdrv j k hj
      · intro j hj
        replace hj : s.permit = some j := hj
        rcases hper j hj with ⟨k, hk⟩
        by_cases hij : i = j
        · subst hij
          rw [hr] at hk
          cases hk
          rcases hro with h | h <;> cases h
        · exact ⟨k, by
            show (s.readers.set i LRead.waitingSem)[j]? = some (LRead.driving k)
            rw [List.getElem?_set_ne hij]
            exact hk⟩
      · intro w2 hw2
        replace hw2 : s.value = some w2 := hw2
        rw [hv] at hw2
        cases hw2
      · intro j w2 hj
        replace hj : (s.readers.set i LRead.waitingSem)[j]? = some (LRead.doneR w2) := hj
        by_cases hij : i = j
        · subst hij
          rw [List.getElem?_set_self hilen] at hj
          cases hj
        · rw [List.getElem?_set_ne hij] at hj
          exact hdone j w2 hj
    | none =>
      have hlk : s.lockedBy = none := by rw [hlock, hp]
      have hstep : lstep fuel v s i
          = { s with permit := some i, lockedBy := some i,
                     readers := s.readers.set i (.driving fuel) } := by
        rcases hro with rfl | rfl <;> simp only [lstep, hr, hv, hp, hlk]
      rw [hstep]
      refine ⟨hpan, rfl, ?_, ?_, hcmp0, ?_, ?_, hcle⟩
      · intro j k hj
        replace hj : (s.readers.set i (LRead.driving fuel))[j]? = some (LRead.driving k) := hj
        show some i = some j
        by_cases hij : i = j
        · rw [hij]
        · rw [List.getElem?_set_ne hij] at hj
          have := hdrv j k hj
          rw [hp] at this
          cases this
      · intro j hj
        replace hj : some i = some j := hj
        cases hj
        exact ⟨fuel, by
          show (s.readers.set i (LRead.driving fuel))[i]? = some (LRead.driving fuel)
          exact List.getElem?_set_self hilen⟩
      · intro w2 hw2
        replace hw2 : s.value = some w2 := hw2
        rw [hv] at hw2
        cases hw2
      · intro j w2 hj
        replace hj : (s.readers.set i (LRead.driving fuel))[j]? = some (LRead.doneR w2) := hj
        by_cases hij : i = j
        · subst hij
          rw [List.getElem?_set_self hilen] at hj
          cases hj
        · rw [List.getElem?_set_ne hij] at hj
          exact hdone j w2 hj

theorem linv_step (fuel v : Nat) (s : LazyState) (i : Nat) (hinv : LInv v s) :
    LInv v (lstep fuel v s i) := by
  obtain ⟨hpan, hlock, hdrv, hper, hcmp0, hval, hdone, hcle⟩ := hinv
  cases hr : s.readers[i]? with
  | none =>
    have hstep : lstep fuel v s i = s := by
      simp only [lstep, hr]
    rw [hstep]
    exact ⟨hpan, hlock, hdrv, hper, hcmp0, hval, hdone, hcle⟩
  | some r =>
    have hilen : i < s.readers.length := lt_length_of_get?_eq_some hr
    cases r with
    | outside =>
      exact linv_step_poll fuel v s i
        ⟨hpan, hlock, hdrv, hper, hcmp0, hval, hdone, hcle⟩ _ hr (Or.inl rfl)
    | waitingSem =>
      exact linv_step_poll fuel v s i
        ⟨hpan, hlock, hdrv, hper, hcmp0, hval, hdone, hcle⟩ _ hr (Or.inr rfl)
    | driving k =>
      cases k with
      | zero =>
        have hpi : s.permit = some i := hdrv i 0 hr
        have hvnone : s.value = none := by
          cases hv : s.value with
          | none => rfl
          | some w =>
            have := (hval w hv).2.2
            rw [hpi] at this
            cases this
        have hc0 : s.completions = 0 := hcmp0 hvnone
        have hstep : lstep fuel v s i
            = { s with value := some v, permit := none, lockedBy := none,
                       completions := s.completions + 1,
                       readers := s.readers.set i (.doneR v) } := by
          simp only [lstep, hr]
        rw [hstep]
        refine ⟨hpan, rfl, ?_, ?_, ?_, ?_, ?_, ?_⟩
        · intro j k2 hj
          replace hj : (s.readers.set i (LRead.doneR v))[j]? = some (LRead.driving k2) := hj
          by_cases hij : i = j
          · subst hij
            rw [List.getElem?_set_self hilen] at hj
            cases hj
          · rw [List.getElem?_set_ne hij] at hj
            have := hdrv j k2 hj
            rw [hpi] at this
            cases this
            exact absurd rfl hij
        · intro j hj
          replace hj : (none : Option Nat) = some j := hj
          cases hj
        · intro h
          replace h : (some v : Option Nat) = none := h
          cases h
        · intro w2 hw2
          replace hw2 : (some v : Option Nat) = some w2 := hw2
          cases hw2
          exact ⟨rfl, by show s.completions + 1 = 1; rw [hc0], rfl⟩
        · intro j w2 hj
          replace hj : (s.readers.set i (LRead.doneR v))[j]? = some (LRead.doneR w2) := hj
          by_cases hij : i = j
          · subst hij
            rw [List.getElem?_set_self hilen] at hj
            cases hj
            rfl
          · rw [List.getElem?_set_ne hij] at hj
            exact hdone j w2 hj
        · show s.completions + 1 ≤ 1
          rw [hc0]
      | succ k2 =>
        have hpi : s.permit = some i := hdrv i (k2 + 1) hr
        have hstep : lstep fuel v s i
            = { s with readers := s.readers.set i (.driving k2) } := by
          simp only [lstep, hr]
        rw [hstep]
        refine ⟨hpan, hlock, ?_, ?_, hcmp0, ?_, ?_, hcle⟩
        · intro j k3 hj
          replace hj : (s.readers.set i (LRead.driving k2))[j]? = some (LRead.driving k3) := hj
          by_cases hij : i = j
          · subst hij
            exact hpi
          · rw [List.getElem?_set_ne hij] at hj
            exact hdrv j k3 hj
        · intro j hj
          replace hj : s.permit = some j := hj
          rw [hpi] at hj
          cases hj
          exact ⟨k2, by
            show (s.readers.set i (LRead.driving k2))[i]? = some (LRead.driving k2)
            exact List.getElem?_set_self hilen⟩
        · intro w2 hw2
          replace hw2 : s.value = some w2 := hw2
          have := (hval w2 hw2).2.2
          rw [hpi] at this
          cases this
        · intro j w2 hj
          replace hj : (s.readers.set i (LRead.driving k2))[j]? = some (LRead.doneR w2) := hj
          by_cases hij : i = j
          · subst hij
            rw [List.getElem?_set_self hilen] at hj
            cases hj
          · rw [List.getElem?_set_ne hij] at hj
            exact hdone j w2 hj
    | doneR w =>
      have hstep : lstep fuel v s i = s := by
        simp only [lstep, hr]
      rw [hstep]
      exact ⟨hpan, hlock, hdrv, hper, hcmp0, hval, hdone, hcle⟩

theorem linv_exec (fuel v : Nat) (s : LazyState) (sched : List Nat)
    (hinv : LInv v s) : LInv v (lexec fuel v s sched) := by
  induction sched generalizing s with
  | nil => exact hinv
  | cons c cs ih =>
    exact ih (lstep fuel v s c) (linv_step fuel v s c hinv)

/-- After the cell is filled, a `get` poll by any caller returns the
memoized value without driving the stored future: the cell, the
completion count and the mutex are untouched, and a polling caller
finishes with the memoized value. -/
theorem lstep_after_fill (fuel v : Nat) (s : LazyState) (i : Nat) (hinv : LInv v s)
    (w : Nat) (hv : s.value = some w) :
    (lstep fuel v s i).value = some w ∧
    (lstep fuel v s i).completions = s.completions ∧
    ((s.readers[i]? = some .outside ∨ s.readers[i]? = some .waitingSem) →
      (lstep fuel v s i).readers[i]? = some (.doneR w)) := by
  obtain ⟨hpan, hlock, hdrv, hper, hcmp0, hval, hdone, hcle⟩ := hinv
  cases hr : s.readers[i]? with
  | none =>
    have hstep : lstep fuel v s i = s := by simp only [lstep, hr]
    rw [hstep]
    refine ⟨hv, rfl, ?_⟩
    rintro (h | h) <;> cases h
  | some r =>
    have hilen : i < s.readers.length := lt_length_of_get?_eq_some hr
    cases r with
    | outside =>
      have hstep : lstep fuel v s i
          = { s with readers := s.readers.set i (.doneR w) } := by
        simp only [lstep, hr, hv]
      rw [hstep]
      exact ⟨hv, rfl, fun _ => List.getElem?_set_self hilen⟩
    | waitingSem =>
      have hstep : lstep fuel v s i
          = { s with readers := s.readers.set i (.doneR w) } := by
        simp only [lstep, hr, hv]
      rw [hstep]
      exact ⟨hv, rfl, fun _ => List.getElem?_set_self hilen⟩
    | driving k =>
      have := (hval w hv).2.2
      rw [hdrv i k hr] at this
      cases this
    | doneR w2 =>
      have hstep : lstep fuel v s i = s := by simp only [lstep, hr]
      rw [hstep]
      refine ⟨hv, rfl, ?_⟩
      rintro (h | h) <;> cases h

/-- A caller polling `get` while the cell is empty and another caller
holds the initialization permit transitions to waiting on the semaphore:
no panic fires, no completion happens. -/
theorem lstep_blocked (fuel v : Nat) (s : LazyState) (i j : Nat)
    (hv : s.value = none) (hp : s.permit = some j)
    (hro : s.readers[i]? = some .outside ∨ s.readers[i]? = some .waitingSem) :
    (lstep fuel v s i).readers[i]? = some .waitingSem ∧
    (lstep fuel v s i).panicked = s.panicked ∧
    (lstep fuel v s i).completions = s.completions := by
  have hilen : i < s.readers.length := by
    rcases hro with h | h <;> exact lt_length_of_get?_eq_some h
  have hstep : lstep fuel v s i = { s with readers := s.readers.set i .waitingSem } := by
    rcases hro with h | h <;> simp only [lstep, h, hv, hp]
  rw [hstep]
  exact ⟨List.getElem?_set_self hilen, rfl, rfl⟩

/-! ## Claim C7 -/

/-- C7: over every interleaving of any number of callers of `get` on a
shared lazy promise, the wrapped computation completes at most once;
every caller that finishes observes the single memoized value; and once
the cell is filled, a further `get` poll by any caller returns that value
without re-driving the computation (cell and completion count are
untouched and the polling caller finishes with the value). -/
theorem c7_lazy_computation_at_most_once (fuel v n : Nat) (sched : List Nat) :
    (lexec fuel v (linit n) sched).completions ≤ 1 ∧
    (∀ (i w : Nat),
      (lexec fuel v (linit n) sched).readers[i]? = some (LRead.doneR w) → w = v) ∧
    (∀ (w i : Nat), (lexec fuel v (linit n) sched).value = some w →
      (lstep fuel v (lexec fuel v (linit n) sched) i).value = some w ∧
      (lstep fuel v (lexec fuel v (linit n) sched) i).completions
        = (lexec fuel v (linit n) sched).completions ∧
      (((lexec fuel v (linit n) sched).readers[i]? = some LRead.outside ∨
          (lexec fuel v (linit n) sched).readers[i]? = some LRead.waitingSem) →
        (lstep fuel v (lexec fuel v (linit n) sched)
          i).readers[i]? = some (LRead.doneR w))) := by
  have hinv := linv_exec fuel v (linit n) sched (linv_init v n)
  refine ⟨hinv.2.2.2.2.2.2.2, hinv.2.2.2.2.2.2.1, ?_⟩
  intro w i hv
  exact lstep_after_fill fuel v _ i hinv w hv

/-- Witness for C7: one caller drives the zero step computation to
completion, after which a second caller polling `get` receives the
memoized value. -/
theorem c7_lazy_computation_witness :
    (lexec 0 42 (linit 2) [0, 0]).value = some 42 ∧
    (lexec 0 42 (linit 2) [0, 0]).readers[1]? = some LRead.outside ∧
    (lstep 0 42 (lexec 0 42 (linit 2) [0, 0]) 1).readers[1]? = some (LRead.doneR 42) :=
  ⟨by decide, by decide,
    ((c7_lazy_computation_at_most_once 0 42 2 [0, 0]).2.2 42 1 (by decide)).2.2
      (Or.inl (by decide))⟩

/-! ## Claim C4 -/

/-- C4 counterexample: in the concrete two caller interleaving where the
first caller acquires the cell and is still driving the computation, the
second caller that invokes `get` does NOT fail fast: it transitions to
waiting on the cell semaphore, no usage error fires, the computation has
not completed and is not duplicated.  This refutes the claim that the
second concurrent caller fails fast with a usage error rather than
waiting. -/
theorem c4_counterexample :
    (lexec 5 42 (linit 2) [0, 1]).readers[1]? = some LRead.waitingSem ∧
    (lexec 5 42 (linit 2) [0, 1]).panicked = false ∧
    (lexec 5 42 (linit 2) [0, 1]).value = none ∧
    (lexec 5 42 (linit 2) [0, 1]).completions = 0 := by
  refine ⟨?_, ?_, ?_, ?_⟩ <;> decide

/-- C4 (amended): when `get` is invoked concurrently from a second call
site before the wrapped computation completes, the second caller neither
fails nor duplicates the work: it waits on the shared once cell (the
`computation already in progress` usage error in `init` is unreachable
through `get`, because the cell serializes initialization attempts), and
every caller that finishes observes the single memoized value. -/
theorem c4_concurrent_get_waits (fuel v n : Nat) (sched : List Nat) :
    (lexec fuel v (linit n) sched).panicked = false ∧
    (∀ (i w : Nat),
      (lexec fuel v (linit n) sched).readers[i]? = some (LRead.doneR w) → w = v) ∧
    (∀ (i j : Nat), (lexec fuel v (linit n) sched).value = none →
      (lexec fuel v (linit n) sched).permit = some j →
      ((lexec fuel v (linit n) sched).readers[i]? = some LRead.outside ∨
        (lexec fuel v (linit n) sched).readers[i]? = some LRead.waitingSem) →
      (lstep fuel v (lexec fuel v (linit n) sched) i).readers[i]? = some LRead.waitingSem ∧
      (lstep fuel v (lexec fuel v (linit n) sched) i).panicked = false ∧
      (lstep fuel v (lexec fuel v (linit n) sched) i).completions
        = (lexec fuel v (linit n) sched).completions) := by
  have hinv := linv_exec fuel v (linit n) sched (linv_init v n)
  refine ⟨hinv.1, hinv.2.2.2.2.2.2.1, ?_⟩
  intro i j hv hp hro
  have h := lstep_blocked fuel v _ i j hv hp hro
  exact ⟨h.1, by rw [h.2.1]; exact hinv.1, h.2.2⟩

/-- Witness for C4 (amended): concrete two caller interleaving with the
second caller blocked while the first drives the computation. -/
theorem c4_concurrent_get_waits_witness :
    (lexec 5 42 (linit 2) [0]).value = none ∧
    (lexec 5 42 (linit 2) [0]).permit = some 0 ∧
    (lexec 5 42 (linit 2) [0]).readers[1]? = some LRead.outside ∧
    (lstep 5 42 (lexec 5 42 (linit 2) [0]) 1).readers[1]? = some LRead.waitingSem ∧
    (lstep 5 42 (lexec 5 42 (linit 2) [0]) 1).panicked = false :=
  ⟨by decide, by decide, by decide,
    ((c4_concurrent_get_waits 5 42 2 [0]).2.2 1 0 (by decide) (by decide)
      (Or.inl (by decide))).1,
    ((c4_concurrent_get_waits 5 42 2 [0]).2.2 1 0 (by decide) (by decide)
      (Or.inl (by decide))).2.1⟩

end RoliProxy
